import Mathlib

/-!
Verification model of `randy_cannabis_fibonacci.rs`: a memoized Fibonacci
engine whose every non-base term is routed through 64-bit IEEE-754 binary
floating point (`(sum as f64 * multiplier) as u128`).  Floating-point values
are modelled exactly as rationals; `rnd64` is round-to-nearest, ties-to-even
at 53 bits of precision (exponents here stay far inside the normal range of
binary64, so no overflow/subnormal handling is needed for the values this
program produces).
-/

set_option maxRecDepth 100000

/-- Maximum value of `u128`. -/
def u128Max : ℕ := 2 ^ 128 - 1

/-- `u128::saturating_add`. -/
def satAdd (a b : ℕ) : ℕ := min (a + b) u128Max

/-- Fuelled floor-log2 on naturals; structural, so it reduces in the kernel.
For `0 < n < 2 ^ fuel` it computes `⌊log2 n⌋`. -/
def log2Fuel : ℕ → ℕ → ℕ
  | 0, _ => 0
  | f + 1, n => if 2 ≤ n then log2Fuel f (n / 2) + 1 else 0

/-- `⌊log2 q⌋` for a positive rational, valid for `2 ^ (-150) ≤ q < 2 ^ 360`. -/
def qLog2Floor (q : ℚ) : ℤ :=
  (log2Fuel 512 (q.num.toNat * 2 ^ 150 / q.den) : ℤ) - 150

/-- `2 ^ e` as a rational, written by cases so that it evaluates by `Nat.pow`. -/
def pow2Z : ℤ → ℚ
  | .ofNat k => ((2 ^ k : ℕ) : ℚ)
  | .negSucc k => 1 / ((2 ^ (k + 1) : ℕ) : ℚ)

/-- Round a rational to the nearest 53-bit-significand binary floating-point
value, ties to even — the binary64 rounding in range. Nonpositive inputs
(only 0 occurs in this program) round to 0. -/
def rnd64 (q : ℚ) : ℚ :=
  if q ≤ 0 then 0
  else
    let e : ℤ := qLog2Floor q
    let s : ℚ := q * pow2Z (52 - e)
    let n0 : ℤ := ⌊s⌋
    let r : ℚ := s - (n0 : ℚ)
    let n : ℤ :=
      if r < 1 / 2 then n0
      else if 1 / 2 < r then n0 + 1
      else if n0 % 2 = 0 then n0 else n0 + 1
    (n : ℚ) * pow2Z (e - 52)

/-- `x as f64` for a `u128` value: conversion rounds to nearest, ties to even. -/
def natToF64 (x : ℕ) : ℚ := rnd64 (x : ℚ)

/-- IEEE-754 binary64 multiplication on exactly-represented operands. -/
def f64mul (x y : ℚ) : ℚ := rnd64 (x * y)

/-- IEEE-754 binary64 division on exactly-represented operands. -/
def f64div (x y : ℚ) : ℚ := rnd64 (x / y)

/-- `x as u128` for a (nonnegative) `f64` value: truncate toward zero,
saturating at the bounds, as Rust float-to-int casts do. -/
def f64toU128 (x : ℚ) : ℕ := if x < 0 then 0 else min (⌊x⌋.toNat) u128Max

/-- The strain enhancement applied to a computed term:
`(base as f64 * multiplier) as u128` (source lines 111–112 and 247). -/
def enhance (mq : ℚ) (base : ℕ) : ℕ := f64toU128 (f64mul (natToF64 base) mq)

-- Sanity checks of the float model on known binary64 values: the
-- significand-and-exponent forms of the `f64` literals `1.2` and `0.8`,
-- exactness below 2^53, and the round-to-even at `fib 79`.
example : (rnd64 (6 / 5)).num = 5404319552844595 ∧ (rnd64 (6 / 5)).den = 4503599627370496 := by
  with_unfolding_all decide
example : (rnd64 (4 / 5)).num = 3602879701896397 ∧ (rnd64 (4 / 5)).den = 4503599627370496 := by
  with_unfolding_all decide
example : (rnd64 (1 : ℚ)).num = 1 ∧ (rnd64 (1 : ℚ)).den = 1 := by with_unfolding_all decide
example : ⌊rnd64 ((14472334024676221 : ℕ) : ℚ)⌋ = 14472334024676220 := by
  with_unfolding_all decide
example : enhance 1 55 = 55 := by with_unfolding_all decide
example : enhance 1 14472334024676221 = 14472334024676220 := by with_unfolding_all decide

deriving instance DecidableEq for Except

/-- Cannabis strain types (source lines 44–48). -/
inductive CannabisStrain where
  | Sativa
  | Indica
  | Hybrid
  deriving DecidableEq

/-- Strain characteristics `(multiplier, personality, description)` (source
lines 52–58); each multiplier is the exact value of the `f64` literal. -/
def CannabisStrain.characteristics : CannabisStrain → ℚ × String × String
  | .Sativa => (rnd64 (6 / 5), "Energetic", "Fast computation with creative optimizations")
  | .Indica => (rnd64 (4 / 5), "Relaxed", "Methodical calculation with deep caching")
  | .Hybrid => (1, "Balanced", "Optimal mix of speed and accuracy")

/-- The distortion multiplier of a strain. -/
def strainMultiplier (s : CannabisStrain) : ℚ := s.characteristics.1

/-- The memoization table `HashMap<u64, u128>`, as a partial map on indices. -/
def Cache : Type := ℕ → Option ℕ

/-- `HashMap::insert` (overwrites an existing entry). -/
def cacheInsert (c : Cache) (k v : ℕ) : Cache := fun j => if j = k then some v else c j

/-- The cache seeded at construction with `{0 → 0, 1 → 1}` (source lines 75–77). -/
def initialCache : Cache := fun k => if k = 0 then some 0 else if k = 1 then some 1 else none

/-- `format!("{:?}", strain)`. -/
def strainName : CannabisStrain → String
  | .Sativa => "Sativa"
  | .Indica => "Indica"
  | .Hybrid => "Hybrid"

/-- The calculator state (source lines 36–40). -/
structure RandyCannabisFibonacci where
  cache : Cache
  strain_multiplier : ℚ
  strain_name : String

/-- `RandyCannabisFibonacci::new` (source lines 72–84). -/
def RandyCannabisFibonacci.new (strain : CannabisStrain) : RandyCannabisFibonacci :=
  { cache := initialCache
    strain_multiplier := strain.characteristics.1
    strain_name := strainName strain }

/-- The error message of the overflow guard (source line 92). -/
def overflowMsg : String := "Fibonacci overflow: Result would exceed u128 capacity"

/-- `plant_spirit_fibonacci` (source lines 90–124), as an explicit function of
the multiplier and the cache: guard `n > 186` first, then cache lookup, then
the base case `n ≤ 1` or the recurrence
`(fib1.saturating_add(fib2) as f64 * multiplier) as u128`, then insert. -/
def plant_spirit_fibonacci (mq : ℚ) : ℕ → Cache → Except String ℕ × Cache
  | 0, c =>
    if 186 < 0 then (.error overflowMsg, c)
    else match c 0 with
      | some v => (.ok v, c)
      | none => (.ok 0, cacheInsert c 0 0)
  | 1, c =>
    if 186 < 1 then (.error overflowMsg, c)
    else match c 1 with
      | some v => (.ok v, c)
      | none => (.ok 1, cacheInsert c 1 1)
  | n + 2, c =>
    if 186 < n + 2 then (.error overflowMsg, c)
    else match c (n + 2) with
      | some v => (.ok v, c)
      | none =>
        match plant_spirit_fibonacci mq (n + 1) c with
        | (.error e, c1) => (.error e, c1)
        | (.ok fib1, c1) =>
          match plant_spirit_fibonacci mq n c1 with
          | (.error e, c2) => (.error e, c2)
          | (.ok fib2, c2) =>
            let result := enhance mq (satAdd fib1 fib2)
            (.ok result, cacheInsert c2 (n + 2) result)

/-- `plant_spirit_fibonacci` on a freshly constructed engine. -/
def psFresh (mq : ℚ) (n : ℕ) : Except String ℕ :=
  (plant_spirit_fibonacci mq n initialCache).1

/-- One step of the memoized recurrence on the pair of the two latest terms. -/
def fibStep (mq : ℚ) (p : ℕ × ℕ) : ℕ × ℕ := (p.2, enhance mq (satAdd p.2 p.1))

/-- Iterated recurrence pairs starting from the seeds `(0, 1)`. -/
def fibPair (mq : ℚ) : ℕ → ℕ × ℕ
  | 0 => (0, 1)
  | n + 1 => fibStep mq (fibPair mq n)

/-- The pure value of the distorted recurrence
`a 0 = 0, a 1 = 1, a (n+2) = enhance mq (satAdd (a (n+1)) (a n))`. -/
def fibD (mq : ℚ) (n : ℕ) : ℕ := (fibPair mq n).1

example : (plant_spirit_fibonacci 1 10 initialCache).1 = .ok 55 := by with_unfolding_all decide
example : fibD 1 10 = 55 := by with_unfolding_all decide
example : fibD (strainMultiplier .Sativa) 5 = 6 := by with_unfolding_all decide
example : (plant_spirit_fibonacci 1 187 initialCache).1 = .error overflowMsg := by
  with_unfolding_all decide

/-- The loop of `generate_sequence` (source lines 133–136); `i as u64` is the
reduction mod `2 ^ 64` (the loop errors out at index 187, far below it). -/
def genSeqAux (mq : ℚ) : ℕ → ℕ → Cache → List ℕ → Except String (List ℕ) × Cache
  | _, 0, c, acc => (.ok acc.reverse, c)
  | i, r + 1, c, acc =>
    match plant_spirit_fibonacci mq (i % 2 ^ 64) c with
    | (.ok v, c1) => genSeqAux mq (i + 1) r c1 (v :: acc)
    | (.error e, c1) => (.error e, c1)

/-- `generate_sequence` (source lines 130–139). -/
def generate_sequence (mq : ℚ) (count : ℕ) (c : Cache) : Except String (List ℕ) × Cache :=
  genSeqAux mq 0 count c []

/-- The ratio loop of `golden_ratio_analysis` (source lines 188–193): for each
index `i ≥ 1` with `sequence[i-1] > 0`, push
`sequence[i] as f64 / sequence[i-1] as f64`. -/
def ratiosAux : List ℕ → List ℚ
  | a :: b :: rest =>
    (if 0 < a then [f64div (natToF64 b) (natToF64 a)] else []) ++ ratiosAux (b :: rest)
  | _ => []

/-- `golden_ratio_analysis` (source lines 184–196). -/
def golden_ratio_analysis (mq : ℚ) (terms : ℕ) (c : Cache) : Except String (List ℚ) × Cache :=
  match generate_sequence mq terms c with
  | (.ok seq, c1) => (.ok (ratiosAux seq), c1)
  | (.error e, c1) => (.error e, c1)

/-- The error message of the range guard (source line 147). -/
def invalidRangeMsg : String := "Invalid range: end must be greater than start"

/-- The shared result map of the range computation, as a partial map. -/
def Results : Type := ℕ → Option ℕ

/-- Insert into the result map. -/
def resInsert (R : Results) (k v : ℕ) : Results := fun j => if j = k then some v else R j

/-- The body of one worker task (source lines 159–166): compute every index of
the chunk against the shared cache, inserting the successful results and
silently dropping per-index errors. -/
def chunkLoop (mq : ℚ) : ℕ → ℕ → Cache → Results → Cache × Results
  | _, 0, c, R => (c, R)
  | lo, len + 1, c, R =>
    match plant_spirit_fibonacci mq lo c with
    | (.ok v, c1) => chunkLoop mq (lo + 1) len c1 (resInsert R lo v)
    | (.error _, c1) => chunkLoop mq (lo + 1) len c1 R

/-- The chunks `(chunk_start, chunk_end)` produced by
`(start..end).step_by(10)` with `chunk_end = min(chunk_start + 10, end)`
(source lines 154–155), written with fuel so that it evaluates structurally;
`b - a` chunks of size ≥ 1 always suffice. -/
def chunkListAux : ℕ → ℕ → ℕ → List (ℕ × ℕ)
  | 0, _, _ => []
  | fuel + 1, a, b =>
    if a < b then (a, min (a + 10) b) :: chunkListAux fuel (min (a + 10) b) b else []

/-- The chunk decomposition of `[a, b)`. -/
def chunkList (a b : ℕ) : List (ℕ × ℕ) := chunkListAux (b - a) a b

/-- Run the spawned chunk tasks to completion.  The tasks share the cache and
the result map, and each inserts a pure value determined by the index alone,
so every thread interleaving yields the same final map; the model runs the
tasks in spawn order. -/
def spawnLoop (mq : ℚ) : List (ℕ × ℕ) → Cache → Results → Cache × Results
  | [], c, R => (c, R)
  | (lo, hi) :: rest, c, R =>
    spawnLoop mq rest (chunkLoop mq lo (hi - lo) c R).1 (chunkLoop mq lo (hi - lo) c R).2

/-- `parallel_fibonacci_range` (source lines 145–178). -/
def parallel_fibonacci_range (mq : ℚ) (a b : ℕ) (c : Cache) : Except String Results × Cache :=
  if b ≤ a then (.error invalidRangeMsg, c)
  else
    ((.ok (spawnLoop mq (chunkList a b) c fun _ => none).2),
      (spawnLoop mq (chunkList a b) c fun _ => none).1)

/-- Extract the result map of a successful range computation (empty on error). -/
def resultsOf : Except String Results → Results
  | .ok R => R
  | .error _ => fun _ => none

/-- The benchmark indices `1, 6, 11, …` up to `max_n` (source line 205). -/
def benchList (maxN : ℕ) : List ℕ := (List.range ((maxN + 4) / 5)).map fun i => 1 + 5 * i

/-- The loop of `performance_benchmark` (source lines 205–211): its cache and
error behaviour; wall-clock durations are not observable in the model. -/
def benchAux (mq : ℚ) : List ℕ → Cache → Except String Unit × Cache
  | [], c => (.ok (), c)
  | n :: rest, c =>
    match plant_spirit_fibonacci mq n c with
    | (.ok _, c1) => benchAux mq rest c1
    | (.error e, c1) => (.error e, c1)

/-- `performance_benchmark` (source lines 202–214), durations elided. -/
def performance_benchmark (mq : ℚ) (maxN : ℕ) (c : Cache) : Except String Unit × Cache :=
  benchAux mq (benchList maxN) c

/-- `CannabisFibonacciIterator` (source lines 221–226). -/
structure CannabisFibonacciIterator where
  current : ℕ
  next : ℕ
  strain : CannabisStrain
  count : ℕ

/-- `CannabisFibonacciIterator::new` (source lines 229–236). -/
def CannabisFibonacciIterator.new (strain : CannabisStrain) : CannabisFibonacciIterator :=
  { current := 0, next := 1, strain := strain, count := 0 }

/-- `Iterator::next` (source lines 242–259): save `current` as `result`,
compute `enhanced_next = (next as f64 * multiplier) as u128`, advance to
`(next, result.saturating_add(enhanced_next))`, increment `count`, then
return `None` if `count > 100` or `result > u128::MAX / 2`, else
`Some result`. -/
def iterNext (s : CannabisFibonacciIterator) : Option ℕ × CannabisFibonacciIterator :=
  let result := s.current
  let enhanced := enhance s.strain.characteristics.1 s.next
  let s1 : CannabisFibonacciIterator :=
    { current := s.next, next := satAdd result enhanced, strain := s.strain,
      count := s.count + 1 }
  (if 100 < s1.count ∨ u128Max / 2 < result then none else some result, s1)

/-- The iterator state after `k` calls to `next`. -/
def iterStates (st : CannabisStrain) : ℕ → CannabisFibonacciIterator
  | 0 => CannabisFibonacciIterator.new st
  | k + 1 => (iterNext (iterStates st k)).2

/-- The output of the `k`-th (0-based) call to `next`. -/
def iterOut (st : CannabisStrain) (k : ℕ) : Option ℕ := (iterNext (iterStates st k)).1

/-- The outputs of the first `k` calls, computed in one pass. -/
def iterTraceAux : ℕ → CannabisFibonacciIterator → List (Option ℕ)
  | 0, _ => []
  | k + 1, s => (iterNext s).1 :: iterTraceAux k (iterNext s).2

/-- One public operation of the engine. -/
inductive EngineOp where
  | compute (n : ℕ)
  | generate (count : ℕ)
  | parRange (a b : ℕ)
  | golden (terms : ℕ)
  | bench (maxN : ℕ)

/-- The cache effect of one engine operation. -/
def applyOp (mq : ℚ) : EngineOp → Cache → Cache
  | .compute n, c => (plant_spirit_fibonacci mq n c).2
  | .generate count, c => (generate_sequence mq count c).2
  | .parRange a b, c => (parallel_fibonacci_range mq a b c).2
  | .golden terms, c => (golden_ratio_analysis mq terms c).2
  | .bench maxN, c => (performance_benchmark mq maxN c).2

/-- The cache after a sequence of engine operations on a fresh engine. -/
def reachableCache (mq : ℚ) (ops : List EngineOp) : Cache :=
  ops.foldl (fun c op => applyOp mq op c) initialCache

/-- Modelled from the spec words of the recurrence and cache-invariant claims:
`floor(multiplier * sum)` as an exact real-number product of the multiplier
and the saturated sum (no floating-point rounding before the floor). -/
def specEnhance (mq : ℚ) (s : ℕ) : ℕ := (⌊mq * (s : ℚ)⌋).toNat

/-- The value `compute`'s recurrence produces from the two preceding terms
`(older, newer)`: saturating sum first, then multiply-and-truncate
(source lines 107–114). -/
def computeStepVal (mq : ℚ) (older newer : ℕ) : ℕ := enhance mq (satAdd newer older)

/-- The value the iterator's step produces from its pair `(current, next)`:
multiply-and-truncate the newer term only, then saturating-add
(source lines 247–250). -/
def iterStepVal (mq : ℚ) (current next : ℕ) : ℕ := satAdd current (enhance mq next)

theorem pow2Z_natCast (k : ℕ) : pow2Z (k : ℤ) = ((2 ^ k : ℕ) : ℚ) := rfl

theorem pow2Z_eq (e : ℤ) : pow2Z e = (2 : ℚ) ^ e := by
  cases e with
  | ofNat k =>
    show ((2 ^ k : ℕ) : ℚ) = (2 : ℚ) ^ (Int.ofNat k)
    rw [Int.ofNat_eq_natCast, zpow_natCast]
    push_cast
    ring
  | negSucc k =>
    show 1 / ((2 ^ (k + 1) : ℕ) : ℚ) = (2 : ℚ) ^ Int.negSucc k
    rw [zpow_negSucc, one_div]
    push_cast
    ring_nf

theorem log2Fuel_spec :
    ∀ f m, 0 < m → m < 2 ^ f → 2 ^ log2Fuel f m ≤ m ∧ m < 2 ^ (log2Fuel f m + 1) := by
  intro f
  induction f with
  | zero =>
    intro m hm hlt
    simp at hlt
    omega
  | succ f ih =>
    intro m hm hlt
    by_cases h2 : 2 ≤ m
    · have hdiv : m / 2 < 2 ^ f := by
        have hp : (2 : ℕ) ^ (f + 1) = 2 ^ f * 2 := pow_succ 2 f
        omega
      have hrec := ih (m / 2) (by omega) hdiv
      simp only [log2Fuel, if_pos h2]
      rcases hrec with ⟨ha, hb⟩
      have e1 : (2 : ℕ) ^ (log2Fuel f (m / 2) + 1) = 2 ^ log2Fuel f (m / 2) * 2 :=
        pow_succ 2 _
      have e2 : (2 : ℕ) ^ (log2Fuel f (m / 2) + 1 + 1) = 2 ^ (log2Fuel f (m / 2) + 1) * 2 :=
        pow_succ 2 _
      omega
    · have hm1 : m = 1 := by omega
      subst hm1
      simp [log2Fuel]

theorem rnd64_natCast (n : ℕ) (h : n < 2 ^ 53) : rnd64 (n : ℚ) = (n : ℚ) := by
  rcases Nat.eq_zero_or_pos n with h0 | hpos
  · subst h0
    simp [rnd64]
  · have hq : ¬((n : ℚ) ≤ 0) := by
      push_neg
      exact_mod_cast hpos
    have hL := log2Fuel_spec 512 (n * 2 ^ 150)
      (Nat.mul_pos hpos (pow_pos (by norm_num) 150))
      (by
        calc n * 2 ^ 150 < 2 ^ 53 * 2 ^ 150 :=
              mul_lt_mul_of_pos_right h (pow_pos (by norm_num) 150)
          _ ≤ 2 ^ 512 := by norm_num)
    set L : ℕ := log2Fuel 512 (n * 2 ^ 150) with hLdef
    have hLle : L ≤ 202 := by
      by_contra hc
      push_neg at hc
      have hup : (2 : ℕ) ^ 203 ≤ 2 ^ L := Nat.pow_le_pow_right (by norm_num) hc
      have hlow : (2 : ℕ) ^ L ≤ n * 2 ^ 150 := hL.1
      have hbig : n * 2 ^ 150 < 2 ^ 53 * 2 ^ 150 :=
        mul_lt_mul_of_pos_right h (pow_pos (by norm_num) 150)
      have hlit : (2 : ℕ) ^ 53 * 2 ^ 150 = 2 ^ 203 := by norm_num
      omega
    have hqe : qLog2Floor (n : ℚ) = (L : ℤ) - 150 := by
      unfold qLog2Floor
      rw [Rat.num_natCast, Rat.den_natCast, Int.toNat_natCast, Nat.div_one]
    have hcast : ((202 - L : ℕ) : ℤ) = (202 : ℤ) - (L : ℤ) := Nat.cast_sub hLle
    have hexp : (52 : ℤ) - ((L : ℤ) - 150) = ((202 - L : ℕ) : ℤ) := by omega
    have hexp2 : (L : ℤ) - 150 - 52 = -(((202 - L : ℕ) : ℤ)) := by omega
    simp only [rnd64, if_neg hq, hqe, hexp, hexp2]
    set j : ℕ := 202 - L with hjdef
    have hs : (n : ℚ) * pow2Z (j : ℤ) = ((n * 2 ^ j : ℕ) : ℚ) := by
      rw [pow2Z_natCast]
      push_cast
      ring
    rw [hs, Int.floor_natCast]
    have hr : ((n * 2 ^ j : ℕ) : ℚ) - (((n * 2 ^ j : ℕ) : ℤ) : ℚ) = 0 := by
      push_cast
      ring
    rw [hr]
    rw [if_pos (by norm_num : (0 : ℚ) < 1 / 2)]
    rw [pow2Z_eq]
    push_cast
    rw [zpow_neg, zpow_natCast]
    have h2 : ((2 : ℚ) ^ j) ≠ 0 := by positivity
    field_simp

theorem enhance_one (m : ℕ) (h : m < 2 ^ 53) : enhance 1 m = m := by
  unfold enhance natToF64 f64mul
  rw [rnd64_natCast m h, mul_one, rnd64_natCast m h]
  unfold f64toU128
  rw [if_neg (not_lt.mpr (by positivity : (0 : ℚ) ≤ (m : ℚ)))]
  rw [Int.floor_natCast, Int.toNat_natCast]
  have : m ≤ u128Max := by
    unfold u128Max
    omega
  omega

theorem fibD_zero (mq : ℚ) : fibD mq 0 = 0 := rfl

theorem fibD_one (mq : ℚ) : fibD mq 1 = 1 := rfl

theorem fibD_add_two (mq : ℚ) (n : ℕ) :
    fibD mq (n + 2) = enhance mq (satAdd (fibD mq (n + 1)) (fibD mq n)) := rfl

theorem fibD_hybrid : ∀ n, n ≤ 78 → fibD 1 n = Nat.fib n := by
  intro n
  induction n using Nat.strong_induction_on with
  | _ n ih =>
    match n with
    | 0 => intro _; rfl
    | 1 => intro _; rfl
    | m + 2 =>
      intro hle
      rw [fibD_add_two, ih (m + 1) (by omega) (by omega), ih m (by omega) (by omega)]
      have hsum : Nat.fib (m + 1) + Nat.fib m = Nat.fib (m + 2) := by
        rw [Nat.fib_add_two]
        ring
      have hlt : Nat.fib (m + 2) < 2 ^ 53 := by
        have h78 : Nat.fib (m + 2) ≤ Nat.fib 78 := Nat.fib_mono hle
        have : Nat.fib 78 < 2 ^ 53 := by with_unfolding_all decide
        omega
      have hsat : satAdd (Nat.fib (m + 1)) (Nat.fib m) = Nat.fib (m + 2) := by
        unfold satAdd u128Max
        have : (2 : ℕ) ^ 53 ≤ 2 ^ 128 := by norm_num
        omega
      rw [hsat, enhance_one _ hlt]

theorem fibD_indica : ∀ n, 2 ≤ n → fibD (strainMultiplier .Indica) n = 0 := by
  intro n
  induction n using Nat.strong_induction_on with
  | _ n ih =>
    match n with
    | 0 => intro h; omega
    | 1 => intro h; omega
    | 2 => intro _; with_unfolding_all decide
    | 3 => intro _; with_unfolding_all decide
    | m + 4 =>
      intro _
      have h1 := ih (m + 3) (by omega) (by omega)
      have h2 := ih (m + 2) (by omega) (by omega)
      rw [fibD_add_two, h1, h2]
      with_unfolding_all decide

/-- Every cache entry holds the value of the pure recurrence. -/
def CacheGood (mq : ℚ) (c : Cache) : Prop := ∀ k v, c k = some v → v = fibD mq k

/-- Every cached index above 1 has both predecessors cached. -/
def CacheClosed (c : Cache) : Prop :=
  ∀ k, (c (k + 2)).isSome → (c (k + 1)).isSome ∧ (c k).isSome

/-- The cache invariant the engine maintains. -/
def CacheInv (mq : ℚ) (c : Cache) : Prop := CacheGood mq c ∧ CacheClosed c

theorem initialCache_inv (mq : ℚ) : CacheInv mq initialCache := by
  constructor
  · intro k v hk
    unfold initialCache at hk
    split_ifs at hk with h0 h1
    · subst h0; cases hk; rfl
    · subst h1; cases hk; rfl
  · intro k hk
    exfalso
    unfold initialCache at hk
    rw [if_neg (by omega), if_neg (by omega)] at hk
    simp at hk

theorem isSome_cacheInsert (c : Cache) (k v j : ℕ) (h : (c j).isSome) :
    (cacheInsert c k v j).isSome := by
  unfold cacheInsert
  split_ifs <;> simp_all

theorem cacheInsert_good (mq : ℚ) (c : Cache) (hg : CacheGood mq c) (n : ℕ) :
    CacheGood mq (cacheInsert c n (fibD mq n)) := by
  intro k v hk
  unfold cacheInsert at hk
  split_ifs at hk with h
  · cases hk; subst h; rfl
  · exact hg k v hk

theorem cacheInsert_closed_le_one (c : Cache) (hc : CacheClosed c) (n v : ℕ) (hn : n ≤ 1) :
    CacheClosed (cacheInsert c n v) := by
  intro k hk
  have hne : k + 2 ≠ n := by omega
  have hk2 : (c (k + 2)).isSome := by
    unfold cacheInsert at hk
    rw [if_neg hne] at hk
    exact hk
  obtain ⟨h1, h0⟩ := hc k hk2
  exact ⟨isSome_cacheInsert c n v (k + 1) h1, isSome_cacheInsert c n v k h0⟩

theorem cacheInsert_closed_preds (c : Cache) (hc : CacheClosed c) (m v : ℕ)
    (h1 : (c (m + 1)).isSome) (h0 : (c m).isSome) :
    CacheClosed (cacheInsert c (m + 2) v) := by
  intro k hk
  by_cases hkm : k = m
  · subst hkm
    exact ⟨isSome_cacheInsert c (k + 2) v (k + 1) h1, isSome_cacheInsert c (k + 2) v k h0⟩
  · have hne : k + 2 ≠ m + 2 := by omega
    have hk2 : (c (k + 2)).isSome := by
      unfold cacheInsert at hk
      rw [if_neg hne] at hk
      exact hk
    obtain ⟨ha, hb⟩ := hc k hk2
    exact ⟨isSome_cacheInsert _ _ _ _ ha, isSome_cacheInsert _ _ _ _ hb⟩

/-- The overflow guard fires before any cache access: above 186 the call
errors and returns the cache unchanged. -/
theorem plant_gt (mq : ℚ) (n : ℕ) (c : Cache) (h : 186 < n) :
    plant_spirit_fibonacci mq n c = (.error overflowMsg, c) := by
  match n with
  | 0 => omega
  | 1 => omega
  | m + 2 =>
    simp only [plant_spirit_fibonacci]
    rw [if_pos h]

/-- Below the guard the computation always succeeds, from any cache. -/
theorem plant_ok (mq : ℚ) :
    ∀ n c, n ≤ 186 → ∃ v, (plant_spirit_fibonacci mq n c).1 = .ok v := by
  intro n
  induction n using Nat.strong_induction_on with
  | _ n ih =>
    match n with
    | 0 =>
      intro c _
      have hif : ¬(186 < 0) := by omega
      rcases h0 : c 0 with _ | v
      · exact ⟨0, by simp only [plant_spirit_fibonacci, if_neg hif, h0]⟩
      · exact ⟨v, by simp only [plant_spirit_fibonacci, if_neg hif, h0]⟩
    | 1 =>
      intro c _
      have hif : ¬(186 < 1) := by omega
      rcases h0 : c 1 with _ | v
      · exact ⟨1, by simp only [plant_spirit_fibonacci, if_neg hif, h0]⟩
      · exact ⟨v, by simp only [plant_spirit_fibonacci, if_neg hif, h0]⟩
    | p + 2 =>
      intro c hle
      have hif : ¬(186 < p + 2) := by omega
      rcases hc : c (p + 2) with _ | v
      · obtain ⟨v1, hv1⟩ := ih (p + 1) (by omega) c (by omega)
        rcases hp1 : plant_spirit_fibonacci mq (p + 1) c with ⟨r1, c1⟩
        rw [hp1] at hv1
        have hr1 : r1 = .ok v1 := hv1
        rw [hr1] at hp1
        obtain ⟨v2, hv2⟩ := ih p (by omega) c1 (by omega)
        rcases hp2 : plant_spirit_fibonacci mq p c1 with ⟨r2, c2⟩
        rw [hp2] at hv2
        have hr2 : r2 = .ok v2 := hv2
        rw [hr2] at hp2
        exact ⟨enhance mq (satAdd v1 v2),
          by simp only [plant_spirit_fibonacci, if_neg hif, hc, hp1, hp2]⟩
      · exact ⟨v, by simp only [plant_spirit_fibonacci, if_neg hif, hc]⟩

/-- Master lemma: from any invariant cache, `plant_spirit_fibonacci` preserves
the invariant, never removes or changes an existing entry, and for `n ≤ 186`
returns the pure recurrence value and caches it. -/
theorem plant_spec (mq : ℚ) :
    ∀ n c, CacheInv mq c →
      CacheInv mq (plant_spirit_fibonacci mq n c).2 ∧
      (∀ k v, c k = some v → (plant_spirit_fibonacci mq n c).2 k = some v) ∧
      (n ≤ 186 →
        (plant_spirit_fibonacci mq n c).1 = .ok (fibD mq n) ∧
        (plant_spirit_fibonacci mq n c).2 n = some (fibD mq n)) := by
  intro n
  induction n using Nat.strong_induction_on with
  | _ n ih =>
    match n with
    | 0 =>
      intro c hInv
      have hif : ¬(186 < 0) := by omega
      rcases h0 : c 0 with _ | v
      · have heq : plant_spirit_fibonacci mq 0 c = (.ok 0, cacheInsert c 0 0) := by
          simp only [plant_spirit_fibonacci, if_neg hif, h0]
        rw [heq]
        refine ⟨⟨cacheInsert_good mq c hInv.1 0, cacheInsert_closed_le_one c hInv.2 0 0 (by omega)⟩,
          ?_, ?_⟩
        · intro k v' hk
          show (if k = 0 then some 0 else c k) = some v'
          by_cases hk0 : k = 0
          · subst hk0; rw [h0] at hk; cases hk
          · rw [if_neg hk0]; exact hk
        · intro _
          refine ⟨rfl, ?_⟩
          show (if (0 : ℕ) = 0 then some 0 else c 0) = some (fibD mq 0)
          rw [if_pos rfl]
          rfl
      · have hv : v = fibD mq 0 := hInv.1 0 v h0
        have heq : plant_spirit_fibonacci mq 0 c = (.ok v, c) := by
          simp only [plant_spirit_fibonacci, if_neg hif, h0]
        rw [heq]
        refine ⟨hInv, fun k v' hk => hk, fun _ => ⟨?_, ?_⟩⟩
        · show Except.ok v = Except.ok (fibD mq 0)
          rw [hv]
        · show c 0 = some (fibD mq 0)
          rw [h0, hv]
    | 1 =>
      intro c hInv
      have hif : ¬(186 < 1) := by omega
      rcases h0 : c 1 with _ | v
      · have heq : plant_spirit_fibonacci mq 1 c = (.ok 1, cacheInsert c 1 1) := by
          simp only [plant_spirit_fibonacci, if_neg hif, h0]
        rw [heq]
        refine ⟨⟨cacheInsert_good mq c hInv.1 1, cacheInsert_closed_le_one c hInv.2 1 1 (by omega)⟩,
          ?_, ?_⟩
        · intro k v' hk
          show (if k = 1 then some 1 else c k) = some v'
          by_cases hk0 : k = 1
          · subst hk0; rw [h0] at hk; cases hk
          · rw [if_neg hk0]; exact hk
        · intro _
          refine ⟨rfl, ?_⟩
          show (if (1 : ℕ) = 1 then some 1 else c 1) = some (fibD mq 1)
          rw [if_pos rfl]
          rfl
      · have hv : v = fibD mq 1 := hInv.1 1 v h0
        have heq : plant_spirit_fibonacci mq 1 c = (.ok v, c) := by
          simp only [plant_spirit_fibonacci, if_neg hif, h0]
        rw [heq]
        refine ⟨hInv, fun k v' hk => hk, fun _ => ⟨?_, ?_⟩⟩
        · show Except.ok v = Except.ok (fibD mq 1)
          rw [hv]
        · show c 1 = some (fibD mq 1)
          rw [h0, hv]
    | p + 2 =>
      intro c hInv
      by_cases hgt : 186 < p + 2
      · rw [plant_gt mq (p + 2) c hgt]
        exact ⟨hInv, fun k v hk => hk, fun hle => absurd hle (by omega)⟩
      · have hif : ¬(186 < p + 2) := hgt
        rcases hc : c (p + 2) with _ | v
        · obtain ⟨ih1Inv, ih1Mono, ih1Ok⟩ := ih (p + 1) (by omega) c hInv
          rcases hp1 : plant_spirit_fibonacci mq (p + 1) c with ⟨r1, c1⟩
          rw [hp1] at ih1Inv ih1Mono ih1Ok
          have hr1 : r1 = .ok (fibD mq (p + 1)) := (ih1Ok (by omega)).1
          have hc1m1 : c1 (p + 1) = some (fibD mq (p + 1)) := (ih1Ok (by omega)).2
          rw [hr1] at hp1
          obtain ⟨ih2Inv, ih2Mono, ih2Ok⟩ := ih p (by omega) c1 ih1Inv
          rcases hp2 : plant_spirit_fibonacci mq p c1 with ⟨r2, c2⟩
          rw [hp2] at ih2Inv ih2Mono ih2Ok
          have hr2 : r2 = .ok (fibD mq p) := (ih2Ok (by omega)).1
          have hc2m : c2 p = some (fibD mq p) := (ih2Ok (by omega)).2
          rw [hr2] at hp2
          have hc2m1 : c2 (p + 1) = some (fibD mq (p + 1)) := ih2Mono (p + 1) _ hc1m1
          have heq : plant_spirit_fibonacci mq (p + 2) c =
              (.ok (enhance mq (satAdd (fibD mq (p + 1)) (fibD mq p))),
                cacheInsert c2 (p + 2) (enhance mq (satAdd (fibD mq (p + 1)) (fibD mq p)))) := by
            simp only [plant_spirit_fibonacci, if_neg hif, hc, hp1, hp2]
          rw [heq]
          refine ⟨⟨?_, ?_⟩, ?_, ?_⟩
          · exact cacheInsert_good mq c2 ih2Inv.1 (p + 2)
          · exact cacheInsert_closed_preds c2 ih2Inv.2 p _
              (by rw [hc2m1]; rfl) (by rw [hc2m]; rfl)
          · intro k v' hk
            have h2 := ih2Mono k v' (ih1Mono k v' hk)
            show (if k = p + 2 then some _ else c2 k) = some v'
            by_cases hk2 : k = p + 2
            · subst hk2; rw [hc] at hk; cases hk
            · rw [if_neg hk2]; exact h2
          · intro _
            refine ⟨rfl, ?_⟩
            show (if p + 2 = p + 2 then some (enhance mq (satAdd (fibD mq (p + 1)) (fibD mq p)))
              else c2 (p + 2)) = some (fibD mq (p + 2))
            rw [if_pos rfl]
            rfl
        · have hv : v = fibD mq (p + 2) := hInv.1 (p + 2) v hc
          have heq : plant_spirit_fibonacci mq (p + 2) c = (.ok v, c) := by
            simp only [plant_spirit_fibonacci, if_neg hif, hc]
          rw [heq]
          refine ⟨hInv, fun k v' hk => hk, fun _ => ⟨?_, ?_⟩⟩
          · show Except.ok v = Except.ok (fibD mq (p + 2))
            rw [hv]
          · show c (p + 2) = some (fibD mq (p + 2))
            rw [hc, hv]

/-- On a fresh engine, `compute` below the guard returns the recurrence value. -/
theorem psFresh_ok (mq : ℚ) (n : ℕ) (h : n ≤ 186) : psFresh mq n = .ok (fibD mq n) :=
  ((plant_spec mq n initialCache (initialCache_inv mq)).2.2 h).1

theorem psFresh_gt (mq : ℚ) (n : ℕ) (h : 186 < n) : psFresh mq n = .error overflowMsg := by
  unfold psFresh
  rw [plant_gt mq n initialCache h]

theorem psFresh_ok_iff (mq : ℚ) (n v : ℕ) :
    psFresh mq n = .ok v ↔ n ≤ 186 ∧ v = fibD mq n := by
  constructor
  · intro h
    by_cases hle : n ≤ 186
    · rw [psFresh_ok mq n hle] at h
      cases h
      exact ⟨hle, rfl⟩
    · rw [psFresh_gt mq n (by omega)] at h
      cases h
  · rintro ⟨hle, rfl⟩
    exact psFresh_ok mq n hle

/-- The sequence loop on an invariant cache: with every remaining index at
most 187 it returns the pure recurrence values in order. -/
theorem genSeqAux_ok (mq : ℚ) :
    ∀ r i c acc, CacheInv mq c → i + r ≤ 187 →
      (genSeqAux mq i r c acc).1 = .ok (acc.reverse ++ (List.range' i r).map (fibD mq)) ∧
      CacheInv mq (genSeqAux mq i r c acc).2 := by
  intro r
  induction r with
  | zero =>
    intro i c acc hInv _
    exact ⟨by simp [genSeqAux, List.range'], hInv⟩
  | succ r ih =>
    intro i c acc hInv hle
    have hmod : i % 2 ^ 64 = i := Nat.mod_eq_of_lt (by omega)
    obtain ⟨hInvP, hMonoP, hOkP⟩ := plant_spec mq i c hInv
    rcases hp : plant_spirit_fibonacci mq i c with ⟨r1, c1⟩
    rw [hp] at hInvP hMonoP hOkP
    have hr1 : r1 = .ok (fibD mq i) := (hOkP (by omega)).1
    rw [hr1] at hp
    have heq : genSeqAux mq i (r + 1) c acc = genSeqAux mq (i + 1) r c1 (fibD mq i :: acc) := by
      simp only [genSeqAux, hmod, hp]
    rw [heq]
    obtain ⟨h1, h2⟩ := ih (i + 1) c1 (fibD mq i :: acc) hInvP (by omega)
    refine ⟨?_, h2⟩
    rw [h1]
    simp [List.range'_succ, List.reverse_cons, List.append_assoc]

/-- With an index beyond 187 still to come, the sequence loop propagates the
overflow error. -/
theorem genSeqAux_err (mq : ℚ) :
    ∀ r i c acc, CacheInv mq c → i ≤ 187 → 187 < i + r →
      (genSeqAux mq i r c acc).1 = .error overflowMsg := by
  intro r
  induction r with
  | zero =>
    intro i c acc _ hi hgt
    omega
  | succ r ih =>
    intro i c acc hInv hi hgt
    have hmod : i % 2 ^ 64 = i := Nat.mod_eq_of_lt (by omega)
    by_cases hi186 : i ≤ 186
    · obtain ⟨hInvP, hMonoP, hOkP⟩ := plant_spec mq i c hInv
      rcases hp : plant_spirit_fibonacci mq i c with ⟨r1, c1⟩
      rw [hp] at hInvP hOkP
      have hr1 : r1 = .ok (fibD mq i) := (hOkP hi186).1
      rw [hr1] at hp
      have heq : genSeqAux mq i (r + 1) c acc = genSeqAux mq (i + 1) r c1 (fibD mq i :: acc) := by
        simp only [genSeqAux, hmod, hp]
      rw [heq]
      exact ih (i + 1) c1 _ hInvP (by omega) (by omega)
    · have hp := plant_gt mq i c (by omega)
      show (genSeqAux mq i (r + 1) c acc).1 = .error overflowMsg
      simp only [genSeqAux, hmod, hp]

/-- The sequence loop preserves the cache invariant and loses no entry. -/
theorem genSeqAux_cache (mq : ℚ) :
    ∀ r i c acc, CacheInv mq c →
      CacheInv mq (genSeqAux mq i r c acc).2 ∧
      (∀ k v, c k = some v → (genSeqAux mq i r c acc).2 k = some v) := by
  intro r
  induction r with
  | zero =>
    intro i c acc h
    exact ⟨h, fun k v hk => hk⟩
  | succ r ih =>
    intro i c acc hInv
    obtain ⟨hInvP, hMonoP, _⟩ := plant_spec mq (i % 2 ^ 64) c hInv
    rcases hp : plant_spirit_fibonacci mq (i % 2 ^ 64) c with ⟨r1, c1⟩
    rw [hp] at hInvP hMonoP
    rcases r1 with e | v
    · have heq : genSeqAux mq i (r + 1) c acc = (.error e, c1) := by
        simp only [genSeqAux, hp]
      rw [heq]
      exact ⟨hInvP, hMonoP⟩
    · have heq : genSeqAux mq i (r + 1) c acc = genSeqAux mq (i + 1) r c1 (v :: acc) := by
        simp only [genSeqAux, hp]
      rw [heq]
      obtain ⟨h1, h2⟩ := ih (i + 1) c1 (v :: acc) hInvP
      exact ⟨h1, fun k v' hk => h2 k v' (hMonoP k v' hk)⟩

theorem generate_sequence_ok (mq : ℚ) (count : ℕ) (c : Cache) (hInv : CacheInv mq c)
    (h : count ≤ 187) :
    (generate_sequence mq count c).1 = .ok ((List.range count).map (fibD mq)) := by
  have hg := (genSeqAux_ok mq count 0 c [] hInv (by omega)).1
  show (genSeqAux mq 0 count c []).1 = _
  rw [hg, List.range_eq_range']
  rfl

theorem generate_sequence_err (mq : ℚ) (count : ℕ) (c : Cache) (hInv : CacheInv mq c)
    (h : 187 < count) :
    (generate_sequence mq count c).1 = .error overflowMsg :=
  genSeqAux_err mq count 0 c [] hInv (by omega) (by omega)

/-- The worker loop of one chunk: the cache invariant is preserved, no cache
entry is lost, and the result map gains exactly the computable indices of the
chunk. -/
theorem chunkLoop_spec (mq : ℚ) :
    ∀ len lo c R, CacheInv mq c →
      CacheInv mq (chunkLoop mq lo len c R).1 ∧
      (∀ k v, c k = some v → (chunkLoop mq lo len c R).1 k = some v) ∧
      (∀ k, (chunkLoop mq lo len c R).2 k =
        if lo ≤ k ∧ k < lo + len ∧ k ≤ 186 then some (fibD mq k) else R k) := by
  intro len
  induction len with
  | zero =>
    intro lo c R hInv
    refine ⟨hInv, fun k v hk => hk, fun k => ?_⟩
    rw [if_neg (by omega)]
    rfl
  | succ len ih =>
    intro lo c R hInv
    by_cases hlo : lo ≤ 186
    · obtain ⟨hInvP, hMonoP, hOkP⟩ := plant_spec mq lo c hInv
      rcases hp : plant_spirit_fibonacci mq lo c with ⟨r1, c1⟩
      rw [hp] at hInvP hMonoP hOkP
      have hr1 : r1 = .ok (fibD mq lo) := (hOkP hlo).1
      rw [hr1] at hp
      have heq : chunkLoop mq lo (len + 1) c R =
          chunkLoop mq (lo + 1) len c1 (resInsert R lo (fibD mq lo)) := by
        simp only [chunkLoop, hp]
      rw [heq]
      obtain ⟨h1, h2, h3⟩ := ih (lo + 1) c1 (resInsert R lo (fibD mq lo)) hInvP
      refine ⟨h1, fun k v hk => h2 k v (hMonoP k v hk), fun k => ?_⟩
      rw [h3 k]
      by_cases hk : lo + 1 ≤ k ∧ k < lo + 1 + len ∧ k ≤ 186
      · rw [if_pos hk, if_pos (by omega)]
      · rw [if_neg hk]
        by_cases hkl : k = lo
        · subst hkl
          show resInsert R k (fibD mq k) k = _
          unfold resInsert
          rw [if_pos rfl, if_pos (by omega)]
        · show resInsert R lo (fibD mq lo) k = _
          unfold resInsert
          rw [if_neg hkl, if_neg (by omega)]
    · have hp := plant_gt mq lo c (by omega)
      have heq : chunkLoop mq lo (len + 1) c R = chunkLoop mq (lo + 1) len c R := by
        simp only [chunkLoop, hp]
      rw [heq]
      obtain ⟨h1, h2, h3⟩ := ih (lo + 1) c R hInv
      refine ⟨h1, h2, fun k => ?_⟩
      rw [h3 k]
      by_cases hk : lo + 1 ≤ k ∧ k < lo + 1 + len ∧ k ≤ 186
      · rw [if_pos hk, if_pos (by omega)]
      · rw [if_neg hk, if_neg (by omega)]

/-- Spawning one task per chunk of `[a, b)` fills the result map with exactly
the computable indices of `[a, b)`. -/
theorem spawnLoop_spec (mq : ℚ) :
    ∀ fuel a b c R, b - a ≤ fuel → CacheInv mq c →
      CacheInv mq (spawnLoop mq (chunkListAux fuel a b) c R).1 ∧
      (∀ k v, c k = some v → (spawnLoop mq (chunkListAux fuel a b) c R).1 k = some v) ∧
      (∀ k, (spawnLoop mq (chunkListAux fuel a b) c R).2 k =
        if a ≤ k ∧ k < b ∧ k ≤ 186 then some (fibD mq k) else R k) := by
  intro fuel
  induction fuel with
  | zero =>
    intro a b c R hf hInv
    refine ⟨hInv, fun k v hk => hk, fun k => ?_⟩
    rw [if_neg (by omega)]
    rfl
  | succ fuel ih =>
    intro a b c R hf hInv
    by_cases hab : a < b
    · have heq : chunkListAux (fuel + 1) a b =
          (a, min (a + 10) b) :: chunkListAux fuel (min (a + 10) b) b := by
        simp only [chunkListAux, if_pos hab]
      rw [heq]
      obtain ⟨hI1, hM1, hR1⟩ := chunkLoop_spec mq (min (a + 10) b - a) a c R hInv
      rcases hcl : chunkLoop mq a (min (a + 10) b - a) c R with ⟨c1, R1⟩
      rw [hcl] at hI1 hM1 hR1
      have hR2 : ∀ j, R1 j =
          if a ≤ j ∧ j < a + (min (a + 10) b - a) ∧ j ≤ 186 then some (fibD mq j) else R j := hR1
      have heq2 : spawnLoop mq ((a, min (a + 10) b) :: chunkListAux fuel (min (a + 10) b) b) c R =
          spawnLoop mq (chunkListAux fuel (min (a + 10) b) b) c1 R1 := by
        simp only [spawnLoop, hcl]
      rw [heq2]
      obtain ⟨h1, h2, h3⟩ := ih (min (a + 10) b) b c1 R1 (by omega) hI1
      refine ⟨h1, fun k v hk => h2 k v (hM1 k v hk), fun k => ?_⟩
      rw [h3 k, hR2 k]
      by_cases hk1 : min (a + 10) b ≤ k ∧ k < b ∧ k ≤ 186
      · rw [if_pos hk1, if_pos (by omega)]
      · rw [if_neg hk1]
        by_cases hk2 : a ≤ k ∧ k < a + (min (a + 10) b - a) ∧ k ≤ 186
        · rw [if_pos hk2, if_pos (by omega)]
        · rw [if_neg hk2, if_neg (by omega)]
    · have heq : chunkListAux (fuel + 1) a b = [] := by
        simp only [chunkListAux, if_neg hab]
      rw [heq]
      refine ⟨hInv, fun k v hk => hk, fun k => ?_⟩
      rw [if_neg (by omega)]
      rfl

/-- The benchmark loop preserves the cache invariant and loses no entry. -/
theorem benchAux_cache (mq : ℚ) :
    ∀ l c, CacheInv mq c →
      CacheInv mq (benchAux mq l c).2 ∧
      (∀ k v, c k = some v → (benchAux mq l c).2 k = some v) := by
  intro l
  induction l with
  | nil =>
    intro c h
    exact ⟨h, fun k v hk => hk⟩
  | cons n rest ih =>
    intro c hInv
    obtain ⟨hInvP, hMonoP, _⟩ := plant_spec mq n c hInv
    rcases hp : plant_spirit_fibonacci mq n c with ⟨r1, c1⟩
    rw [hp] at hInvP hMonoP
    rcases r1 with e | v
    · have heq : benchAux mq (n :: rest) c = (.error e, c1) := by
        simp only [benchAux, hp]
      rw [heq]
      exact ⟨hInvP, hMonoP⟩
    · have heq : benchAux mq (n :: rest) c = benchAux mq rest c1 := by
        simp only [benchAux, hp]
      rw [heq]
      obtain ⟨h1, h2⟩ := ih c1 hInvP
      exact ⟨h1, fun k v' hk => h2 k v' (hMonoP k v' hk)⟩

/-- Every engine operation preserves the cache invariant and never removes or
changes an existing entry. -/
theorem applyOp_cache (mq : ℚ) (op : EngineOp) (c : Cache) (hInv : CacheInv mq c) :
    CacheInv mq (applyOp mq op c) ∧ (∀ k v, c k = some v → applyOp mq op c k = some v) := by
  cases op with
  | compute n =>
    simp only [applyOp]
    obtain ⟨h1, h2, _⟩ := plant_spec mq n c hInv
    exact ⟨h1, h2⟩
  | generate count =>
    simp only [applyOp]
    obtain ⟨h1, h2⟩ := genSeqAux_cache mq count 0 c [] hInv
    exact ⟨h1, h2⟩
  | parRange a b =>
    simp only [applyOp]
    by_cases hab : b ≤ a
    · simp only [parallel_fibonacci_range, if_pos hab]
      exact ⟨hInv, fun k v hk => hk⟩
    · simp only [parallel_fibonacci_range, if_neg hab]
      obtain ⟨h1, h2, _⟩ := spawnLoop_spec mq (b - a) a b c (fun _ => none) (le_refl _) hInv
      exact ⟨h1, h2⟩
  | golden terms =>
    simp only [applyOp]
    obtain ⟨h1, h2⟩ := genSeqAux_cache mq terms 0 c [] hInv
    rcases hg : generate_sequence mq terms c with ⟨r1, c1⟩
    have hg' : genSeqAux mq 0 terms c [] = (r1, c1) := hg
    rw [hg'] at h1 h2
    rcases r1 with e | seq
    · have heq : golden_ratio_analysis mq terms c = (.error e, c1) := by
        simp only [golden_ratio_analysis, hg]
      rw [heq]
      exact ⟨h1, h2⟩
    · have heq : golden_ratio_analysis mq terms c = (.ok (ratiosAux seq), c1) := by
        simp only [golden_ratio_analysis, hg]
      rw [heq]
      exact ⟨h1, h2⟩
  | bench maxN =>
    simp only [applyOp]
    obtain ⟨h1, h2⟩ := benchAux_cache mq (benchList maxN) c hInv
    exact ⟨h1, h2⟩

/-- Any sequence of engine operations preserves the cache invariant and loses
no entry. -/
theorem foldOps_cache (mq : ℚ) :
    ∀ (ops : List EngineOp) (c : Cache), CacheInv mq c →
      CacheInv mq (List.foldl (fun c op => applyOp mq op c) c ops) ∧
      (∀ k v, c k = some v →
        (List.foldl (fun c op => applyOp mq op c) c ops) k = some v) := by
  intro ops
  induction ops with
  | nil =>
    intro c h
    exact ⟨h, fun k v hk => hk⟩
  | cons op rest ih =>
    intro c hInv
    obtain ⟨h1, h2⟩ := applyOp_cache mq op c hInv
    obtain ⟨h3, h4⟩ := ih (applyOp mq op c) h1
    exact ⟨h3, fun k v hk => h4 k v (h2 k v hk)⟩

theorem iterStates_count (st : CannabisStrain) : ∀ k, (iterStates st k).count = k := by
  intro k
  induction k with
  | zero => rfl
  | succ k ih =>
    show (iterStates st k).count + 1 = k + 1
    rw [ih]

theorem iterOut_none_of_ge (st : CannabisStrain) (k : ℕ) (h : 100 ≤ k) : iterOut st k = none := by
  show (if 100 < (iterStates st k).count + 1 ∨ u128Max / 2 < (iterStates st k).current
    then none else some (iterStates st k).current) = none
  rw [if_pos (Or.inl (by rw [iterStates_count]; omega))]

theorem iterOut_some_le (st : CannabisStrain) (k v : ℕ) (h : iterOut st k = some v) :
    v ≤ u128Max / 2 := by
  have h' : (if 100 < (iterStates st k).count + 1 ∨ u128Max / 2 < (iterStates st k).current
      then none else some (iterStates st k).current) = some v := h
  by_cases hc : 100 < (iterStates st k).count + 1 ∨ u128Max / 2 < (iterStates st k).current
  · rw [if_pos hc] at h'
    cases h'
  · rw [if_neg hc] at h'
    cases h'
    push_neg at hc
    exact hc.2

theorem iterTraceAux_eq (st : CannabisStrain) :
    ∀ k j, iterTraceAux k (iterStates st j) = (List.range' j k).map (iterOut st) := by
  intro k
  induction k with
  | zero => intro j; rfl
  | succ k ih =>
    intro j
    show (iterNext (iterStates st j)).1 :: iterTraceAux k (iterNext (iterStates st j)).2 = _
    have hs : (iterNext (iterStates st j)).2 = iterStates st (j + 1) := rfl
    rw [hs, ih (j + 1)]
    rfl

theorem iterOut_isSome_of_trace (st : CannabisStrain)
    (htr : (iterTraceAux 100 (CannabisFibonacciIterator.new st)).all Option.isSome = true) :
    ∀ k, k < 100 → (iterOut st k).isSome := by
  intro k hk
  have h0 : iterTraceAux 100 (iterStates st 0) = (List.range' 0 100).map (iterOut st) :=
    iterTraceAux_eq st 100 0
  have hnew : iterStates st 0 = CannabisFibonacciIterator.new st := rfl
  rw [hnew] at h0
  rw [h0] at htr
  have hkmem : k ∈ List.range' 0 100 := by
    rw [List.mem_range'_1]
    omega
  exact List.all_eq_true.mp htr _ (List.mem_map_of_mem _ hkmem)

/-- The ratio loop visits exactly the adjacent pairs, skipping those whose
denominator (the earlier term) is zero. -/
theorem ratiosAux_zip : ∀ l : List ℕ,
    ratiosAux l = (l.tail.zip l).filterMap
      (fun p => if 0 < p.2 then some (f64div (natToF64 p.1) (natToF64 p.2)) else none) := by
  intro l
  induction l with
  | nil => rfl
  | cons a rest ih =>
    cases rest with
    | nil => rfl
    | cons b rest2 =>
      show (if 0 < a then [f64div (natToF64 b) (natToF64 a)] else []) ++ ratiosAux (b :: rest2)
        = _
      rw [ih]
      show _ = List.filterMap _ ((b :: rest2).zip (a :: b :: rest2))
      rw [List.zip_cons_cons, List.filterMap_cons]
      by_cases ha : 0 < a
      · simp [ha]
      · simp [ha]

theorem ratiosAux_zeros : ∀ t, ratiosAux (0 :: List.replicate t 0) = [] := by
  intro t
  induction t with
  | zero => rfl
  | succ t ih =>
    show (if (0 : ℕ) < 0 then [f64div (natToF64 0) (natToF64 0)] else []) ++
      ratiosAux (0 :: List.replicate t 0) = []
    rw [if_neg (by omega), ih]
    rfl

theorem ratiosAux_indica (t : ℕ) :
    ratiosAux (0 :: 1 :: 0 :: List.replicate t 0) = [0] := by
  have h1 : ratiosAux (0 :: 1 :: 0 :: List.replicate t 0) =
      (if (0 : ℕ) < 0 then [f64div (natToF64 1) (natToF64 0)] else []) ++
      ((if (0 : ℕ) < 1 then [f64div (natToF64 0) (natToF64 1)] else []) ++
        ratiosAux (0 :: List.replicate t 0)) := rfl
  rw [h1, if_neg (by omega), if_pos (by omega), ratiosAux_zeros t]
  have h2 : f64div (natToF64 0) (natToF64 1) = 0 := by with_unfolding_all decide
  rw [h2]
  rfl

/-- The Indica sequence is `0, 1, 0, 0, …`. -/
theorem indicaSeqShape (t : ℕ) :
    (List.range (t + 3)).map (fibD (strainMultiplier .Indica)) =
      0 :: 1 :: 0 :: List.replicate t 0 := by
  apply List.ext_getElem
  · simp
  · intro i h1 h2
    rw [List.getElem_map, List.getElem_range]
    rcases i with _ | _ | _ | j
    · rfl
    · rfl
    · show fibD (strainMultiplier .Indica) 2 = _
      rw [fibD_indica 2 (by omega)]
      rfl
    · rw [fibD_indica (j + 3) (by omega)]
      show (0 : ℕ) = (0 :: 1 :: 0 :: List.replicate t 0)[j + 3]
      simp

theorem fibD_one_78 : fibD 1 78 = 8944394323791464 := by
  rw [fibD_hybrid 78 (by omega)]
  with_unfolding_all decide

theorem fibD_one_77 : fibD 1 77 = 5527939700884757 := by
  rw [fibD_hybrid 77 (by omega)]
  with_unfolding_all decide

/-- The rounding of the `u128` sum to `f64` makes index 79 the first hybrid
term that differs from the mathematical Fibonacci number. -/
theorem fibD_one_79 : fibD 1 79 = 14472334024676220 := by
  have e := fibD_add_two 1 77
  norm_num at e
  rw [e, fibD_one_78, fibD_one_77]
  with_unfolding_all decide

/-- For multiplier 1.0 the two step rules coincide while the sum stays below
`2 ^ 53` (both reduce to the plain sum). -/
theorem stepVal_agree_hybrid (x y : ℕ) (h : x + y < 2 ^ 53) :
    iterStepVal 1 x y = computeStepVal 1 x y := by
  unfold iterStepVal computeStepVal
  rw [enhance_one y (by omega)]
  have hpow : (2 : ℕ) ^ 53 ≤ 2 ^ 128 := by norm_num
  have h1 : satAdd x y = x + y := by
    unfold satAdd u128Max
    omega
  have h2 : satAdd y x = x + y := by
    unfold satAdd u128Max
    omega
  rw [h1, h2, enhance_one (x + y) h]

example : (generate_sequence 1 5 initialCache).1 = .ok [0, 1, 1, 2, 3] := by
  with_unfolding_all decide
example : (golden_ratio_analysis 1 4 initialCache).1 = .ok [1, 2] := by
  with_unfolding_all decide
example : resultsOf (parallel_fibonacci_range 1 0 3 initialCache).1 2 = some 1 := by
  with_unfolding_all decide
example : iterOut .Sativa 5 = some 5 ∧ fibD (strainMultiplier .Sativa) 5 = 6 := by
  with_unfolding_all decide
example : iterStepVal (strainMultiplier .Indica) 1 0 = 1 := by with_unfolding_all decide
example : computeStepVal (strainMultiplier .Indica) 1 0 = 0 := by with_unfolding_all decide
example : specEnhance 1 14472334024676221 = 14472334024676221 := by with_unfolding_all decide

/-- C1 (amended): with the Hybrid multiplier 1.0, `compute(n)` succeeds for
every `0 ≤ n ≤ 186` and equals the mathematical Fibonacci number for every
`0 ≤ n ≤ 78`; `compute(10) = 55`; `compute(187)` fails.  (Beyond 78 the
`u128 → f64` conversion of the sum rounds, so the value drifts from the
mathematical Fibonacci number.) -/
theorem claim_c1 :
    (∀ n, n ≤ 186 → ∃ v, psFresh (strainMultiplier .Hybrid) n = .ok v) ∧
    (∀ n, n ≤ 78 → psFresh (strainMultiplier .Hybrid) n = .ok (Nat.fib n)) ∧
    psFresh (strainMultiplier .Hybrid) 10 = .ok 55 ∧
    psFresh (strainMultiplier .Hybrid) 187 = .error overflowMsg := by
  have hsm : strainMultiplier CannabisStrain.Hybrid = 1 := rfl
  refine ⟨?_, ?_, ?_, ?_⟩
  · intro n h
    exact ⟨fibD (strainMultiplier .Hybrid) n, psFresh_ok _ n h⟩
  · intro n h
    rw [psFresh_ok _ n (by omega), hsm, fibD_hybrid n h]
  · rw [psFresh_ok _ 10 (by omega), hsm]
    have h10 : fibD 1 10 = 55 := by with_unfolding_all decide
    rw [h10]
  · exact psFresh_gt _ 187 (by omega)

/-- Witness for C1 at the concrete inputs 40 and 10. -/
theorem claim_c1_witness :
    psFresh (strainMultiplier .Hybrid) 40 = .ok (Nat.fib 40) ∧ Nat.fib 40 = 102334155 :=
  ⟨claim_c1.2.1 40 (by omega), by with_unfolding_all decide⟩

/-- Counterexample to C1 as stated: at `n = 79` the hybrid engine returns
`fib 79 - 1`, not the mathematical Fibonacci number. -/
theorem claim_c1_counterexample :
    psFresh (strainMultiplier .Hybrid) 79 = .ok 14472334024676220 ∧
    Nat.fib 79 = 14472334024676221 ∧
    (14472334024676220 : ℕ) ≠ 14472334024676221 := by
  refine ⟨?_, by with_unfolding_all decide, by omega⟩
  rw [psFresh_ok _ 79 (by omega)]
  have hsm : strainMultiplier CannabisStrain.Hybrid = 1 := rfl
  rw [hsm, fibD_one_79]

/-- C2 (amended): the iterator advances its pair `(current, next)` to
`(next, current sat+ trunc(next · m))`, applying the multiplier to the newer
term only before the saturating add, whereas `compute`'s recurrence saturates
the sum first and then multiplies; the two step rules agree for the Hybrid
multiplier on pairs summing below `2 ^ 53` but differ in general. -/
theorem claim_c2 :
    (∀ s : CannabisFibonacciIterator,
      (iterNext s).2 = ⟨s.next, iterStepVal s.strain.characteristics.1 s.current s.next,
        s.strain, s.count + 1⟩) ∧
    (∀ (mq : ℚ) (n : ℕ), fibD mq (n + 2) = computeStepVal mq (fibD mq n) (fibD mq (n + 1))) ∧
    (∀ x y : ℕ, x + y < 2 ^ 53 →
      iterStepVal (strainMultiplier .Hybrid) x y = computeStepVal (strainMultiplier .Hybrid) x y) ∧
    iterStepVal (strainMultiplier .Sativa) 2 3 ≠ computeStepVal (strainMultiplier .Sativa) 2 3 := by
  refine ⟨fun s => rfl, fun mq n => rfl, fun x y h => ?_, by with_unfolding_all decide⟩
  have hsm : strainMultiplier CannabisStrain.Hybrid = 1 := rfl
  rw [hsm]
  exact stepVal_agree_hybrid x y h

/-- Witness for C2 at the concrete pair (3, 5) for the Hybrid strain. -/
theorem claim_c2_witness :
    iterStepVal (strainMultiplier .Hybrid) 3 5 = computeStepVal (strainMultiplier .Hybrid) 3 5 ∧
    computeStepVal (strainMultiplier .Hybrid) 3 5 = 8 :=
  ⟨claim_c2.2.2.1 3 5 (by norm_num), by with_unfolding_all decide⟩

/-- Counterexample to C2 as stated: on the pair `(1, 0)` with the Indica
multiplier the iterator's step yields 1 while `compute`'s recurrence step
yields 0 — the two step functions are not the same function. -/
theorem claim_c2_counterexample :
    iterStepVal (strainMultiplier .Indica) 1 0 = 1 ∧
    computeStepVal (strainMultiplier .Indica) 1 0 = 0 ∧
    iterStepVal (strainMultiplier .Indica) 1 0 ≠ computeStepVal (strainMultiplier .Indica) 1 0 :=
  ⟨by with_unfolding_all decide, by with_unfolding_all decide, by with_unfolding_all decide⟩

/-- C3 (amended): `compute(0) = 0`, `compute(1) = 1`, and for `2 ≤ n ≤ 186`
`compute(n)` equals `enhance` — the `f64` product of the f64-rounded
saturating sum of the two previous values with the multiplier, truncated to
`u128` — applied to the previous two values.  (The spec's exact-real
`floor(m * sum)` differs from `enhance` once the sum reaches `2 ^ 53`.) -/
theorem claim_c3 (mq : ℚ) (n : ℕ) (h2 : 2 ≤ n) (h186 : n ≤ 186) :
    psFresh mq 0 = .ok 0 ∧ psFresh mq 1 = .ok 1 ∧
    ∃ v1 v2, psFresh mq (n - 1) = .ok v1 ∧ psFresh mq (n - 2) = .ok v2 ∧
      psFresh mq n = .ok (enhance mq (satAdd v1 v2)) := by
  obtain ⟨p, hp⟩ : ∃ p, n = p + 2 := ⟨n - 2, by omega⟩
  subst hp
  refine ⟨psFresh_ok mq 0 (by omega), psFresh_ok mq 1 (by omega),
    fibD mq (p + 1), fibD mq p, ?_, ?_, ?_⟩
  · have h : p + 2 - 1 = p + 1 := by omega
    rw [h]
    exact psFresh_ok mq (p + 1) (by omega)
  · have h : p + 2 - 2 = p := by omega
    rw [h]
    exact psFresh_ok mq p (by omega)
  · rw [psFresh_ok mq (p + 2) (by omega), fibD_add_two]

/-- Witness for C3 at multiplier 1 and `n = 2`. -/
theorem claim_c3_witness :
    psFresh 1 2 = .ok (enhance 1 (satAdd 1 0)) ∧ enhance 1 (satAdd 1 0) = 1 := by
  obtain ⟨h0, h1, v1, v2, hv1, hv2, hv⟩ := claim_c3 1 2 (by omega) (by omega)
  have e1 : psFresh 1 (2 - 1) = .ok 1 := by with_unfolding_all decide
  have e0 : psFresh 1 (2 - 2) = .ok 0 := by with_unfolding_all decide
  rw [e1] at hv1
  rw [e0] at hv2
  injection hv1 with hv1e
  injection hv2 with hv2e
  subst hv1e
  subst hv2e
  exact ⟨hv, by with_unfolding_all decide⟩

/-- Counterexample to C3 as stated: at multiplier 1.0 and `n = 79` the code
returns the f64-rounded value 14472334024676220 while the spec's exact
`floor(m * saturating_add(compute(78), compute(77)))` is 14472334024676221. -/
theorem claim_c3_counterexample :
    psFresh 1 79 = .ok 14472334024676220 ∧
    psFresh 1 78 = .ok 8944394323791464 ∧
    psFresh 1 77 = .ok 5527939700884757 ∧
    specEnhance 1 (satAdd 8944394323791464 5527939700884757) = 14472334024676221 ∧
    (14472334024676220 : ℕ) ≠ 14472334024676221 := by
  refine ⟨?_, ?_, ?_, by with_unfolding_all decide, by omega⟩
  · rw [psFresh_ok 1 79 (by omega), fibD_one_79]
  · rw [psFresh_ok 1 78 (by omega), fibD_one_78]
  · rw [psFresh_ok 1 77 (by omega), fibD_one_77]

/-- C4: from any engine state, `plant_spirit_fibonacci(n)` returns the
overflow error exactly when `n > 186`, and on that path the cache is
returned unchanged (the guard precedes every cache access). -/
theorem claim_c4 (mq : ℚ) (n : ℕ) (c : Cache) :
    ((plant_spirit_fibonacci mq n c).1 = .error overflowMsg ↔ 186 < n) ∧
    (186 < n → plant_spirit_fibonacci mq n c = (.error overflowMsg, c)) := by
  constructor
  · constructor
    · intro h
      by_contra hle
      push_neg at hle
      obtain ⟨v, hv⟩ := plant_ok mq n c (by omega)
      rw [hv] at h
      cases h
    · intro h
      rw [plant_gt mq n c h]
  · intro h
    exact plant_gt mq n c h

/-- Witness for C4 at `n = 187` on a fresh cache. -/
theorem claim_c4_witness :
    (plant_spirit_fibonacci 1 187 initialCache).1 = .error overflowMsg ∧
    plant_spirit_fibonacci 1 187 initialCache = (.error overflowMsg, initialCache) := by
  have h := claim_c4 1 187 initialCache
  exact ⟨h.1.mpr (by omega), h.2 (by omega)⟩

/-- C5: `parallel_fibonacci_range(a, b)` fails with the invalid-range error
exactly when `b ≤ a`; for `a < b` the result map contains an index exactly
when it lies in `[a, b)` and its standalone computation succeeds, mapped to
that standalone value (per-index errors are silently dropped). -/
theorem claim_c5 (mq : ℚ) (a b : ℕ) :
    ((parallel_fibonacci_range mq a b initialCache).1 = .error invalidRangeMsg ↔ b ≤ a) ∧
    (a < b → ∀ n v,
      resultsOf (parallel_fibonacci_range mq a b initialCache).1 n = some v ↔
        (a ≤ n ∧ n < b ∧ psFresh mq n = .ok v)) := by
  by_cases hab : b ≤ a
  · constructor
    · constructor
      · intro _
        exact hab
      · intro _
        simp only [parallel_fibonacci_range, if_pos hab]
    · intro h
      omega
  · push_neg at hab
    have hspec := spawnLoop_spec mq (b - a) a b initialCache (fun _ => none) (le_refl _)
      (initialCache_inv mq)
    constructor
    · constructor
      · intro h
        simp only [parallel_fibonacci_range, if_neg (by omega : ¬ b ≤ a)] at h
        cases h
      · intro h
        omega
    · intro _ n v
      have hres : resultsOf (parallel_fibonacci_range mq a b initialCache).1 =
          (spawnLoop mq (chunkList a b) initialCache fun _ => none).2 := by
        simp only [parallel_fibonacci_range, if_neg (by omega : ¬ b ≤ a), resultsOf]
      rw [hres]
      have h3 : (spawnLoop mq (chunkList a b) initialCache fun _ => none).2 n =
          if a ≤ n ∧ n < b ∧ n ≤ 186 then some (fibD mq n) else none := hspec.2.2 n
      rw [h3]
      constructor
      · intro h
        by_cases hcond : a ≤ n ∧ n < b ∧ n ≤ 186
        · rw [if_pos hcond] at h
          injection h with he
          exact ⟨hcond.1, hcond.2.1, by rw [psFresh_ok mq n hcond.2.2, he]⟩
        · rw [if_neg hcond] at h
          cases h
      · rintro ⟨h1, h2, h3⟩
        obtain ⟨hn186, hv⟩ := (psFresh_ok_iff mq n v).mp h3
        rw [if_pos ⟨h1, h2, hn186⟩, hv]

/-- Witness for C5: the range (5, 5) fails and the range (0, 3) at
multiplier 1.0 yields exactly {0 → 0, 1 → 1, 2 → 1}. -/
theorem claim_c5_witness :
    (parallel_fibonacci_range 1 5 5 initialCache).1 = .error invalidRangeMsg ∧
    resultsOf (parallel_fibonacci_range 1 0 3 initialCache).1 0 = some 0 ∧
    resultsOf (parallel_fibonacci_range 1 0 3 initialCache).1 1 = some 1 ∧
    resultsOf (parallel_fibonacci_range 1 0 3 initialCache).1 2 = some 1 ∧
    resultsOf (parallel_fibonacci_range 1 0 3 initialCache).1 3 = none := by
  refine ⟨(claim_c5 1 5 5).1.mpr (by omega), ?_, ?_, ?_, ?_⟩
  · exact ((claim_c5 1 0 3).2 (by omega) 0 0).mpr
      ⟨by omega, by omega, by with_unfolding_all decide⟩
  · exact ((claim_c5 1 0 3).2 (by omega) 1 1).mpr
      ⟨by omega, by omega, by with_unfolding_all decide⟩
  · exact ((claim_c5 1 0 3).2 (by omega) 2 1).mpr
      ⟨by omega, by omega, by with_unfolding_all decide⟩
  · rcases hr : resultsOf (parallel_fibonacci_range 1 0 3 initialCache).1 3 with _ | v
    · rfl
    · have h := ((claim_c5 1 0 3).2 (by omega) 3 v).mp hr
      omega

/-- C6 (amended): construction seeds the cache with exactly {0 → 0, 1 → 1};
after any sequence of engine operations every cached index `n ≥ 2` has both
predecessors cached and holds the f64 recurrence step `enhance` of the two
predecessor values; no operation removes or changes an existing entry.
(The spec's exact-real `floor((cache[n-1] + cache[n-2]) * multiplier)`
formula fails at index 79; the stored value is the f64-rounded one.) -/
theorem claim_c6 (mq : ℚ) (ops : List EngineOp) :
    (∀ st : CannabisStrain,
      (RandyCannabisFibonacci.new st).cache 0 = some 0 ∧
      (RandyCannabisFibonacci.new st).cache 1 = some 1 ∧
      ∀ k, 2 ≤ k → (RandyCannabisFibonacci.new st).cache k = none) ∧
    (reachableCache mq ops 0 = some 0 ∧ reachableCache mq ops 1 = some 1) ∧
    (∀ n v, reachableCache mq ops (n + 2) = some v →
      ∃ v1 v2, reachableCache mq ops (n + 1) = some v1 ∧ reachableCache mq ops n = some v2 ∧
        v = enhance mq (satAdd v1 v2)) ∧
    (∀ op k v, reachableCache mq ops k = some v →
      applyOp mq op (reachableCache mq ops) k = some v) := by
  obtain ⟨hInv, hMono⟩ := foldOps_cache mq ops initialCache (initialCache_inv mq)
  refine ⟨?_, ⟨hMono 0 0 rfl, hMono 1 1 rfl⟩, ?_, ?_⟩
  · intro st
    refine ⟨rfl, rfl, fun k hk => ?_⟩
    show initialCache k = none
    unfold initialCache
    rw [if_neg (by omega), if_neg (by omega)]
  · intro n v hv
    have hs : ((reachableCache mq ops) (n + 2)).isSome := by
      rw [hv]
      rfl
    obtain ⟨h1s, h0s⟩ := hInv.2 n hs
    obtain ⟨v1, hv1⟩ := Option.isSome_iff_exists.mp h1s
    obtain ⟨v2, hv2⟩ := Option.isSome_iff_exists.mp h0s
    refine ⟨v1, v2, hv1, hv2, ?_⟩
    have e : v = fibD mq (n + 2) := hInv.1 (n + 2) v hv
    have e1 : v1 = fibD mq (n + 1) := hInv.1 (n + 1) v1 hv1
    have e2 : v2 = fibD mq n := hInv.1 n v2 hv2
    rw [e, e1, e2, fibD_add_two]
  · intro op k v hv
    exact (applyOp_cache mq op (reachableCache mq ops) hInv).2 k v hv

/-- Witness for C6 after the single operation `compute 5` at multiplier 1. -/
theorem claim_c6_witness :
    reachableCache 1 [.compute 5] 0 = some 0 ∧
    applyOp 1 (.compute 7) (reachableCache 1 [.compute 5]) 3 = some 2 := by
  have h := claim_c6 1 [.compute 5]
  exact ⟨h.2.1.1, h.2.2.2 (.compute 7) 3 2 (by with_unfolding_all decide)⟩

/-- Counterexample to C6 as stated: after `compute 79` on a fresh hybrid
engine, the cache holds 14472334024676220 at index 79, while the spec's
exact-product formula over the cached predecessors gives 14472334024676221. -/
theorem claim_c6_counterexample :
    applyOp 1 (.compute 79) initialCache 79 = some 14472334024676220 ∧
    applyOp 1 (.compute 79) initialCache 78 = some 8944394323791464 ∧
    applyOp 1 (.compute 79) initialCache 77 = some 5527939700884757 ∧
    specEnhance 1 (satAdd 8944394323791464 5527939700884757) = 14472334024676221 ∧
    (14472334024676220 : ℕ) ≠ 14472334024676221 := by
  obtain ⟨hInv, hMono, hOk⟩ := plant_spec 1 79 initialCache (initialCache_inv 1)
  have h79 : (plant_spirit_fibonacci 1 79 initialCache).2 79 = some (fibD 1 79) :=
    (hOk (by omega)).2
  have hs : ((plant_spirit_fibonacci 1 79 initialCache).2 79).isSome := by
    rw [h79]
    rfl
  obtain ⟨h78s, h77s⟩ := hInv.2 77 hs
  obtain ⟨v1, hv1⟩ := Option.isSome_iff_exists.mp h78s
  obtain ⟨v2, hv2⟩ := Option.isSome_iff_exists.mp h77s
  have e1 : v1 = fibD 1 78 := hInv.1 78 v1 hv1
  have e2 : v2 = fibD 1 77 := hInv.1 77 v2 hv2
  refine ⟨?_, ?_, ?_, by with_unfolding_all decide, by omega⟩
  · show (plant_spirit_fibonacci 1 79 initialCache).2 79 = some 14472334024676220
    rw [h79, fibD_one_79]
  · show (plant_spirit_fibonacci 1 79 initialCache).2 78 = some 8944394323791464
    rw [hv1, e1, fibD_one_78]
  · show (plant_spirit_fibonacci 1 79 initialCache).2 77 = some 5527939700884757
    rw [hv2, e2, fibD_one_77]

set_option maxHeartbeats 4000000 in
/-- C7: for every strain the iterator yields at most 100 elements (none from
the 101st call on), never emits a value above `u128::MAX / 2`, and once it
returns `None` it never yields again. -/
theorem claim_c7 (st : CannabisStrain) :
    (∀ k, iterOut st k ≠ none → k < 100) ∧
    (∀ k, 100 ≤ k → iterOut st k = none) ∧
    (∀ k v, iterOut st k = some v → v ≤ u128Max / 2) ∧
    (∀ k, iterOut st k = none → iterOut st (k + 1) = none) := by
  have htr : (iterTraceAux 100 (CannabisFibonacciIterator.new st)).all Option.isSome = true := by
    cases st
    · with_unfolding_all decide
    · with_unfolding_all decide
    · with_unfolding_all decide
  have hsome := iterOut_isSome_of_trace st htr
  refine ⟨?_, fun k h => iterOut_none_of_ge st k h, fun k v h => iterOut_some_le st k v h, ?_⟩
  · intro k hne
    by_contra hk
    push_neg at hk
    exact hne (iterOut_none_of_ge st k hk)
  · intro k hnone
    have hk : ¬ k < 100 := by
      intro hlt
      have hs := hsome k hlt
      rw [hnone] at hs
      cases hs
    exact iterOut_none_of_ge st (k + 1) (by omega)

/-- Witness for C7 on the Sativa iterator at concrete call indices. -/
theorem claim_c7_witness :
    (0 : ℕ) < 100 ∧ iterOut .Sativa 101 = none ∧ (0 : ℕ) ≤ u128Max / 2 := by
  have h := claim_c7 .Sativa
  exact ⟨h.1 0 (by with_unfolding_all decide), h.2.2.2 100 (h.2.1 100 (by omega)),
    h.2.2.1 0 0 (by with_unfolding_all decide)⟩

/-- C8: `generate_sequence(count)` returns the list of the `count` standalone
`compute` values, in order, when `count ≤ 187`, and propagates the overflow
error exactly when `count > 187`. -/
theorem claim_c8 (mq : ℚ) (count : ℕ) :
    (count ≤ 187 →
      (generate_sequence mq count initialCache).1 = .ok ((List.range count).map (fibD mq)) ∧
      ((List.range count).map (fibD mq)).length = count ∧
      (∀ i, i < count → psFresh mq i = .ok (fibD mq i))) ∧
    (187 < count → (generate_sequence mq count initialCache).1 = .error overflowMsg) := by
  constructor
  · intro h
    refine ⟨generate_sequence_ok mq count initialCache (initialCache_inv mq) h, by simp, ?_⟩
    intro i hi
    exact psFresh_ok mq i (by omega)
  · intro h
    exact generate_sequence_err mq count initialCache (initialCache_inv mq) h

/-- Witness for C8 at counts 3 and 188 for multiplier 1. -/
theorem claim_c8_witness :
    (generate_sequence 1 3 initialCache).1 = .ok [0, 1, 1] ∧
    (generate_sequence 1 188 initialCache).1 = .error overflowMsg := by
  refine ⟨?_, (claim_c8 1 188).2 (by omega)⟩
  have h := ((claim_c8 1 3).1 (by omega)).1
  rw [h]
  have hl : (List.range 3).map (fibD 1) = [0, 1, 1] := by with_unfolding_all decide
  rw [hl]

/-- C9: `golden_ratio_analysis(terms)` computes `generate_sequence(terms)`;
on success it returns, in order, the f64 ratio of every adjacent pair of the
sequence whose earlier element is positive (zero denominators are skipped,
not errors); a generation error is propagated unchanged. -/
theorem claim_c9 (mq : ℚ) (terms : ℕ) (c : Cache) :
    (∀ l, (generate_sequence mq terms c).1 = .ok l →
      (golden_ratio_analysis mq terms c).1 = .ok ((l.tail.zip l).filterMap
        (fun p => if 0 < p.2 then some (f64div (natToF64 p.1) (natToF64 p.2)) else none))) ∧
    (∀ e, (generate_sequence mq terms c).1 = .error e →
      (golden_ratio_analysis mq terms c).1 = .error e) := by
  constructor
  · intro l hl
    rcases hg : generate_sequence mq terms c with ⟨r1, c1⟩
    rw [hg] at hl
    have hr : r1 = .ok l := hl
    rw [hr] at hg
    have heq : golden_ratio_analysis mq terms c = (.ok (ratiosAux l), c1) := by
      simp only [golden_ratio_analysis, hg]
    rw [heq]
    show Except.ok (ratiosAux l) = _
    rw [ratiosAux_zip]
  · intro e he
    rcases hg : generate_sequence mq terms c with ⟨r1, c1⟩
    rw [hg] at he
    have hr : r1 = .error e := he
    rw [hr] at hg
    have heq : golden_ratio_analysis mq terms c = (.error e, c1) := by
      simp only [golden_ratio_analysis, hg]
    rw [heq]

/-- Witness for C9: hybrid ratios for 4 terms, and error propagation at 188. -/
theorem claim_c9_witness :
    (golden_ratio_analysis 1 4 initialCache).1 = .ok [1, 2] ∧
    (golden_ratio_analysis 1 188 initialCache).1 = .error overflowMsg := by
  constructor
  · have hgen : (generate_sequence 1 4 initialCache).1 = .ok [0, 1, 1, 2] := by
      with_unfolding_all decide
    have h := (claim_c9 1 4 initialCache).1 [0, 1, 1, 2] hgen
    rw [h]
    with_unfolding_all decide
  · have hgen : (generate_sequence 1 188 initialCache).1 = .error overflowMsg :=
      generate_sequence_err 1 188 initialCache (initialCache_inv 1) (by omega)
    exact (claim_c9 1 188 initialCache).2 overflowMsg hgen

/-- C10 (amended): with the Indica multiplier 0.8, `compute(n) = 0` for all
`2 ≤ n ≤ 186`, and `golden_ratio_analysis(terms)` returns exactly `[0.0]`
for `3 ≤ terms ≤ 187` (from 188 on, sequence generation overflows and the
error is propagated instead). -/
theorem claim_c10 :
    (∀ n, 2 ≤ n → n ≤ 186 → psFresh (strainMultiplier .Indica) n = .ok 0) ∧
    (∀ terms, 3 ≤ terms → terms ≤ 187 →
      (golden_ratio_analysis (strainMultiplier .Indica) terms initialCache).1 = .ok [0]) := by
  constructor
  · intro n h2 h186
    rw [psFresh_ok _ n h186, fibD_indica n h2]
  · intro terms h3 h187
    obtain ⟨t, ht⟩ : ∃ t, terms = t + 3 := ⟨terms - 3, by omega⟩
    subst ht
    have hgen : (generate_sequence (strainMultiplier .Indica) (t + 3) initialCache).1 =
        .ok ((List.range (t + 3)).map (fibD (strainMultiplier .Indica))) :=
      generate_sequence_ok _ _ initialCache (initialCache_inv _) (by omega)
    rcases hg : generate_sequence (strainMultiplier .Indica) (t + 3) initialCache with ⟨r1, c1⟩
    rw [hg] at hgen
    have hr : r1 = .ok ((List.range (t + 3)).map (fibD (strainMultiplier .Indica))) := hgen
    rw [hr] at hg
    have heq : (golden_ratio_analysis (strainMultiplier .Indica) (t + 3) initialCache).1 =
        .ok (ratiosAux ((List.range (t + 3)).map (fibD (strainMultiplier .Indica)))) := by
      simp only [golden_ratio_analysis, hg]
    rw [heq, indicaSeqShape t, ratiosAux_indica t]

/-- Witness for C10 at `n = 5` and `terms = 5`. -/
theorem claim_c10_witness :
    psFresh (strainMultiplier .Indica) 5 = .ok 0 ∧
    (golden_ratio_analysis (strainMultiplier .Indica) 5 initialCache).1 = .ok [0] :=
  ⟨claim_c10.1 5 (by omega) (by omega), claim_c10.2 5 (by omega) (by omega)⟩

/-- Counterexample to C10 as stated: at `terms = 188` the Indica analysis
propagates the overflow error instead of returning `[0.0]`. -/
theorem claim_c10_counterexample :
    (golden_ratio_analysis (strainMultiplier .Indica) 188 initialCache).1 = .error overflowMsg ∧
    (Except.error overflowMsg : Except String (List ℚ)) ≠ .ok [0] := by
  constructor
  · have hgen : (generate_sequence (strainMultiplier .Indica) 188 initialCache).1 =
        .error overflowMsg :=
      generate_sequence_err _ 188 initialCache (initialCache_inv _) (by omega)
    rcases hg : generate_sequence (strainMultiplier .Indica) 188 initialCache with ⟨r1, c1⟩
    rw [hg] at hgen
    have hr : r1 = .error overflowMsg := hgen
    rw [hr] at hg
    show (golden_ratio_analysis (strainMultiplier .Indica) 188 initialCache).1 = _
    simp only [golden_ratio_analysis, hg]
  · intro h
    cases h
